import Mathlib

/-!
Shallow embedding of the version-reconciliation core of the
extension-info-monitoring repository (src/app/page.tsx): the version
comparator, the sequential-update detector, the group/row status classifiers
and the feed grouping pipeline, together with proofs of the specified
properties.

JavaScript semantics that matter here and how they are modelled:
  * Number(segment) yields an integer or NaN; NaN is modelled as none.
  * The expression (x || 0) maps NaN, 0 and a missing element to 0.
  * Array.prototype.join renders NaN as the text NaN.
  * String falsiness: undefined and the empty string are falsy, a
    whitespace-only string is truthy.
-/

namespace ExtMonitor

/-- A JavaScript number as produced by Number(...) on one version segment:
an integer value, or none standing for NaN. -/
abbrev JSNum := Option Int

/-- Model of the JavaScript expression (x || 0) on an optionally missing
number: NaN and a missing element read as 0, any other value is kept
(0 itself maps to 0 under both readings). -/
def jsOr0 : JSNum → Int
  | none => 0
  | some v => v

/-- Model of the JavaScript increment testVersion[i]++ on a parsed segment:
NaN plus one stays NaN, an integer is incremented. -/
def jsInc : JSNum → JSNum
  | none => none
  | some v => some (v + 1)

/-- Decimal digit characters used when JavaScript renders an integer. -/
def digitChar : Nat → Char
  | 0 => '0'
  | 1 => '1'
  | 2 => '2'
  | 3 => '3'
  | 4 => '4'
  | 5 => '5'
  | 6 => '6'
  | 7 => '7'
  | 8 => '8'
  | 9 => '9'
  | _ => '*'

/-- Digit expansion of a natural number, fuelled so the recursion is
structural and kernel-reducible; the fuel n + 1 always suffices. -/
def natToCharsAux : Nat → Nat → List Char → List Char
  | 0, _, acc => acc
  | fuel + 1, n, acc =>
    if n < 10 then digitChar (n % 10) :: acc
    else natToCharsAux fuel (n / 10) (digitChar (n % 10) :: acc)

/-- Decimal rendering of a natural number. -/
def natToChars (n : Nat) : List Char := natToCharsAux (n + 1) n []

/-- Rendering of an integer the way JavaScript String(...) renders an
integral number: decimal digits with a leading minus sign when negative. -/
def intToChars : Int → List Char
  | Int.ofNat n => natToChars n
  | Int.negSucc n => '-' :: natToChars (n + 1)

/-- Rendering of a parsed segment inside Array.prototype.join: NaN renders
as the three characters NaN, an integer as its decimal form. -/
def renderJSNum : JSNum → List Char
  | none => ['N', 'a', 'N']
  | some v => intToChars v

/-- Whitespace test modelling the trimming JavaScript performs inside
String.prototype.trim and Number(...).  Char.isWhitespace covers the ASCII
whitespace that occurs in this data; the exotic Unicode space characters
JavaScript additionally trims are not modelled. -/
def jsWhitespace (c : Char) : Bool := c.isWhitespace

/-- Both-ends whitespace trim on a character list. -/
def trimChars (l : List Char) : List Char :=
  ((l.dropWhile jsWhitespace).reverse.dropWhile jsWhitespace).reverse

/-- Model of String.prototype.trim. -/
def jsTrim (s : String) : String := String.mk (trimChars s.data)

/-- Numeric value of one decimal digit character. -/
def digitVal (c : Char) : Nat := c.toNat - 48

/-- Value of a string of decimal digit characters. -/
def digitsToNat (l : List Char) : Nat := l.foldl (fun a c => a * 10 + digitVal c) 0

/-- Model of the JavaScript conversion Number(s) as applied to one dot-free
version segment: surrounding whitespace is trimmed, the empty remainder
converts to 0, an optional sign followed by decimal digits converts to the
signed integer value, anything else to NaN.  The exotic numeric literal
forms (hexadecimal, binary, exponent, Infinity) are not modelled; they do
not occur in dot-separated version data. -/
def jsNumber (s : String) : JSNum :=
  match trimChars s.data with
  | [] => some 0
  | '+' :: rest =>
    if rest.isEmpty then none
    else if rest.all Char.isDigit then some (Int.ofNat (digitsToNat rest)) else none
  | '-' :: rest =>
    if rest.isEmpty then none
    else if rest.all Char.isDigit then some (-(Int.ofNat (digitsToNat rest))) else none
  | c :: rest =>
    if (c :: rest).all Char.isDigit then some (Int.ofNat (digitsToNat (c :: rest))) else none

/-- Split of a character list at every dot, matching the JavaScript
String.prototype.split(".") contract: the empty input yields one empty
segment, and n dots yield n + 1 segments. -/
def splitDotL : List Char → List (List Char)
  | [] => [[]]
  | c :: cs =>
    if c = '.' then [] :: splitDotL cs
    else
      match splitDotL cs with
      | [] => [[c]]
      | r :: rs => (c :: r) :: rs

/-- Dot-joining of character lists, matching Array.prototype.join("."). -/
def joinDotL : List (List Char) → List Char
  | [] => []
  | [x] => x
  | x :: y :: xs => x ++ '.' :: joinDotL (y :: xs)

/-- Model of s.split(".") on a string. -/
def splitDot (s : String) : List String := (splitDotL s.data).map String.mk

/-- Model of parts.join(".") on strings. -/
def joinDot (parts : List String) : String := String.mk (joinDotL (parts.map String.data))

/-- Model of version.split(".").map(Number) (src/app/page.tsx lines 71-72
and 83). -/
def versionParts (version : String) : List JSNum := (splitDot version).map jsNumber

/-- Value of the comparison loop of compareVersions once one part list is
exhausted: every remaining index compares a part against the missing side
read as 0, so the first nonzero remaining part decides. -/
def firstNonzero : List Int → Int
  | [] => 0
  | b :: bs => if b ≠ 0 then b else firstNonzero bs

/-- The comparison loop of compareVersions (src/app/page.tsx lines 74-79):
indices run to the longer length, a missing part reads as 0, and the first
index where the parts differ returns partA - partB; otherwise 0. -/
def comparePadded : List Int → List Int → Int
  | [], bs => 0 - firstNonzero bs
  | a :: as, [] => firstNonzero (a :: as)
  | a :: as, b :: bs => if a ≠ b then a - b else comparePadded as bs

/-- Model of compareVersions (src/app/page.tsx lines 70-80): split both
versions on dots, convert every part with Number, and compare positionally
with the (parts[i] || 0) defaults. -/
def compareVersions (versionA versionB : String) : Int :=
  comparePadded ((versionParts versionA).map jsOr0) ((versionParts versionB).map jsOr0)

/-- One candidate of isSequentialVersionUpdate (src/app/page.tsx lines
86-90): copy the parts, increment the part at index i (NaN stays NaN), and
reset every later part to 0. -/
def bumpAt : List JSNum → Nat → List JSNum
  | [], _ => []
  | x :: xs, 0 => jsInc x :: xs.map (fun _ => some 0)
  | x :: xs, i + 1 => x :: bumpAt xs i

/-- Model of testVersion.join(".") (src/app/page.tsx line 92). -/
def renderParts (parts : List JSNum) : String :=
  String.mk (joinDotL (parts.map renderJSNum))

/-- Model of isSequentialVersionUpdate (src/app/page.tsx lines 82-97): true
when some index i of the current parts yields a bumped candidate whose
dot-joined rendering equals the target string verbatim. -/
def isSequentialVersionUpdate (currentVersion targetVersion : String) : Bool :=
  let currentParts := versionParts currentVersion
  (List.range currentParts.length).any fun i =>
    renderParts (bumpAt currentParts i) == targetVersion

/-- Leading-match test: the needle occurs at the very start of the
haystack. -/
def leadMatch : List Char → List Char → Bool
  | [], _ => true
  | _ :: _, [] => false
  | c :: cs, d :: ds => c == d && leadMatch cs ds

/-- Occurrence of the needle anywhere in the haystack. -/
def containsSub : List Char → List Char → Bool
  | [], needle => leadMatch needle []
  | c :: t, needle => leadMatch needle (c :: t) || containsSub t needle

/-- Model of String.prototype.includes. -/
def jsIncludes (hay needle : String) : Bool := containsSub hay.data needle.data

/-- Model of normalizeExtensionName (src/app/page.tsx lines 147-151). -/
def normalizeExtensionName (extensionName : String) : String :=
  if jsIncludes extensionName "Adblock Plus" then "Adblock Plus"
  else if jsIncludes extensionName "AdBlock" then "AdBlock"
  else extensionName

/-- User count typed number | string in the source. -/
inductive UsersVal where
  | num (value : Int)
  | str (value : String)
  deriving DecidableEq

/-- Interface BrowserInfo (src/app/page.tsx lines 23-30). -/
structure BrowserInfo where
  browser : String
  version : String
  lastUpdated : String
  users : UsersVal
  url : String
  lastChecked : String
  deriving DecidableEq

/-- Interface ExtensionGroup (src/app/page.tsx lines 32-39). -/
structure ExtensionGroup where
  name : String
  browsers : List BrowserInfo
  latestVersion : String
  isConsistent : Bool
  releaseDate : Option String
  submittedVersion : Option String
  deriving DecidableEq

/-- The three group status values of interface StatusInfo. -/
inductive GroupStatus where
  | live
  | pending
  | mismatch
  deriving DecidableEq

/-- Interface StatusInfo (src/app/page.tsx lines 41-44). -/
structure StatusInfo where
  status : GroupStatus
  message : String
  deriving DecidableEq

/-- Interface BrowserRowStatus (src/app/page.tsx lines 46-49). -/
structure BrowserRowStatus where
  status : String
  textColor : String
  deriving DecidableEq

/-- Model of determineGroupStatus (src/app/page.tsx lines 153-178).  The
optional-chaining guard (!group.submittedVersion?.trim()) is true when the
field is absent or trims to the empty string. -/
def determineGroupStatus (group : ExtensionGroup) : StatusInfo :=
  match group.submittedVersion with
  | none => { status := GroupStatus.live, message := "No submission data" }
  | some submitted =>
    if jsTrim submitted = "" then
      { status := GroupStatus.live, message := "No submission data" }
    else if group.browsers.all (fun browser =>
        compareVersions browser.version submitted == 0) then
      { status := GroupStatus.live, message := "All versions synchronized" }
    else if group.browsers.any (fun browser =>
        if compareVersions browser.version submitted ≥ 0 then false
        else ! isSequentialVersionUpdate browser.version submitted) then
      { status := GroupStatus.mismatch, message := "Version mismatch detected" }
    else
      { status := GroupStatus.pending, message := "Updates pending approval" }

/-- Model of determineBrowserRowStatus (src/app/page.tsx lines 180-217).
The guard (!group.submittedVersion) is true when the field is absent or is
the empty string; the empty string is falsy and no trim happens here. -/
def determineBrowserRowStatus (browser : BrowserInfo) (group : ExtensionGroup) : BrowserRowStatus :=
  let liveRow : BrowserRowStatus :=
    { status := "✓ LIVE", textColor := "text-green-600 dark:text-green-400 font-semibold" }
  let pendingRow : BrowserRowStatus :=
    { status := "○ PENDING", textColor := "text-blue-600 dark:text-blue-400 font-medium" }
  let mismatchRow : BrowserRowStatus :=
    { status := "⚠ MISMATCH", textColor := "text-red-600 dark:text-red-400 font-bold" }
  match group.submittedVersion with
  | none => liveRow
  | some submitted =>
    if submitted = "" then liveRow
    else
      let versionComparison := compareVersions browser.version submitted
      if versionComparison == 0 then liveRow
      else if versionComparison < 0 then
        if isSequentialVersionUpdate browser.version submitted then pendingRow
        else mismatchRow
      else mismatchRow

/-- Interface RawExtensionData (src/app/page.tsx lines 51-59); both name
fields are optional. -/
structure RawExtensionData where
  extension : Option String
  name : Option String
  version : String
  lastUpdated : String
  users : UsersVal
  url : String
  lastChecked : String
  deriving DecidableEq

/-- Interface GitlabInfo (src/app/page.tsx lines 61-64). -/
structure GitlabInfo where
  version : Option String
  releaseDate : Option String
  deriving DecidableEq

/-- One value of the feed object (interface ApiResponse, src/app/page.tsx
lines 66-68): an array of raw store records, or a non-array object mapping
slugs to registry records. -/
inductive ApiEntry where
  | stores (records : List RawExtensionData)
  | registry (entries : List (String × GitlabInfo))
  deriving DecidableEq

/-- The feed object, modelled as its key-value entries in the order
Object.entries iterates them. -/
abbrev ApiResponse := List (String × ApiEntry)

/-- A defined, non-empty string: the truthy strings of JavaScript. -/
def truthyStr : Option String → Option String
  | none => none
  | some s => if s = "" then none else some s

/-- Model of (extension.extension || extension.name) followed by the falsy
skip (!extensionName) (src/app/page.tsx lines 241-242): the record
contributes only when one of the two fields is a non-empty string. -/
def pickExtensionName (ext : RawExtensionData) : Option String :=
  match truthyStr ext.extension with
  | some s => some s
  | none => truthyStr ext.name

/-- The BrowserInfo pushed for one raw record (src/app/page.tsx lines
253-260). -/
def toBrowserInfo (browserName : String) (ext : RawExtensionData) : BrowserInfo :=
  { browser := browserName, version := ext.version, lastUpdated := ext.lastUpdated,
    users := ext.users, url := ext.url, lastChecked := ext.lastChecked }

/-- Append a browser record to the group stored under the given key,
creating the group at the end on first sight: the insertion-order behaviour
of the extensionGroups object (src/app/page.tsx lines 246-260). -/
def addToGroups : List (String × List BrowserInfo) → String → BrowserInfo → List (String × List BrowserInfo)
  | [], key, b => [(key, [b])]
  | (k, bs) :: rest, key, b =>
    if k = key then (k, bs ++ [b]) :: rest
    else (k, bs) :: addToGroups rest key b

/-- Handling of one raw record (src/app/page.tsx lines 240-261): skip it
when both name fields are falsy, otherwise push its BrowserInfo onto the
normalized group. -/
def addRecord (groups : List (String × List BrowserInfo)) (browserName : String)
    (ext : RawExtensionData) : List (String × List BrowserInfo) :=
  match pickExtensionName ext with
  | none => groups
  | some extensionName =>
    addToGroups groups (normalizeExtensionName extensionName) (toBrowserInfo browserName ext)

/-- The grouping phase of processExtensionData (src/app/page.tsx lines
235-262): iterate the feed entries, skip the gitlab key and every non-array
value, and fold each named record into its group. -/
def collectGroups (apiData : ApiResponse) : List (String × List BrowserInfo) :=
  apiData.foldl (fun groups entry =>
    match entry with
    | (browserName, ApiEntry.stores exts) =>
      if browserName = "gitlab" then groups
      else exts.foldl (fun gs ext => addRecord gs browserName ext) groups
    | (_, ApiEntry.registry _) => groups) []

/-- Property lookup on the feed object. -/
def lookupEntry : String → ApiResponse → Option ApiEntry
  | _, [] => none
  | key, (k, v) :: rest => if k = key then some v else lookupEntry key rest

/-- Model of (apiData.gitlab as Record<string, GitlabInfo>) || {}
(src/app/page.tsx line 264): a missing gitlab key, or an array value whose
string properties are all undefined, contributes nothing. -/
def gitlabOf (apiData : ApiResponse) : List (String × GitlabInfo) :=
  match lookupEntry "gitlab" apiData with
  | some (ApiEntry.registry entries) => entries
  | _ => []

/-- Property lookup on the registry object. -/
def jsLookup : String → List (String × GitlabInfo) → Option GitlabInfo
  | _, [] => none
  | key, (k, v) :: rest => if k = key then some v else jsLookup key rest

/-- Model of the unseeded reduce computing latestVersion (src/app/page.tsx
lines 268-270); reduce on an empty array throws, modelled as none. -/
def latestVersionOf : List String → Option String
  | [] => none
  | v :: vs =>
    some (vs.foldl (fun latest current =>
      if compareVersions current latest > 0 then current else latest) v)

/-- Model of group.name.toLowerCase().replace(/\s+/g, "") (src/app/page.tsx
line 272); Char.toLower covers the ASCII names occurring here. -/
def slugOf (name : String) : String :=
  String.mk ((name.data.map Char.toLower).filter (fun c => ! jsWhitespace c))

/-- The gitlabInfo selection of processExtensionData (src/app/page.tsx
lines 272-279). -/
def selectGitlabInfo (gitlabData : List (String × GitlabInfo)) (groupName : String) : Option GitlabInfo :=
  let normalizedGroupName := slugOf groupName
  if jsIncludes normalizedGroupName "adblockplus" then jsLookup "adblockplus" gitlabData
  else if jsIncludes normalizedGroupName "adblock" then jsLookup "adblock" gitlabData
  else none

/-- The per-group mapping step of processExtensionData (src/app/page.tsx
lines 266-288). -/
def buildGroup (gitlabData : List (String × GitlabInfo)) (entry : String × List BrowserInfo) :
    Option ExtensionGroup :=
  let allVersions := entry.2.map (fun b => b.version)
  match latestVersionOf allVersions with
  | none => none
  | some latestVersion =>
    let gitlabInfo := selectGitlabInfo gitlabData entry.1
    some { name := entry.1
           browsers := entry.2
           latestVersion := latestVersion
           isConsistent := allVersions.all (fun v => allVersions.head? == some v)
           releaseDate := gitlabInfo.bind (fun g => g.releaseDate)
           submittedVersion := gitlabInfo.bind (fun g => g.version) }

/-- Map with exception propagation: a callback returning none models a
thrown error aborting the surrounding Array.prototype.map. -/
def mapOption (f : α → Option β) : List α → Option (List β)
  | [] => some []
  | x :: xs =>
    match f x, mapOption f xs with
    | some y, some ys => some (y :: ys)
    | _, _ => none

/-- Model of processExtensionData (src/app/page.tsx lines 234-289). -/
def processExtensionData (apiData : ApiResponse) : Option (List ExtensionGroup) :=
  mapOption (buildGroup (gitlabOf apiData)) (collectGroups apiData)

/-- Modelled from the spec: a version string with every malformed
(non-numeric) segment replaced by the segment 0 — the rewriting against
which the lenient-parse claim compares the two functions. -/
def sanitizeVersion (s : String) : String :=
  joinDot ((splitDot s).map (fun seg => if jsNumber seg = none then "0" else seg))

/-- The candidate the spec describes for sequential-update detection: the
parts of the current version with the part at index i incremented by one
and every later part reset to 0, rendered as a dot-joined string. -/
def specCandidate (current : String) (i : Nat) : String :=
  renderParts (bumpAt (versionParts current) i)

/-- The sequential-update relation as the spec words it: some segment index
of the current version yields a candidate equal to the target verbatim. -/
def SpecSequential (current target : String) : Prop :=
  ∃ i, i < (versionParts current).length ∧ specCandidate current i = target

/-! Concrete data used by the verification witnesses below. -/

/-- Part read by the comparison loop at index i: the element there, or 0 past
the end. -/
def padGet (l : List Int) (i : Nat) : Int := l.getD i 0

/-- The fold step of the latestVersion reduce. -/
def latestStep (latest current : String) : String :=
  if compareVersions current latest > 0 then current else latest

/-- A concrete store row used by the witnesses. -/
def wBrowserChrome : BrowserInfo :=
  { browser := "chrome", version := "1.0", lastUpdated := "2024-01-01",
    users := UsersVal.num 100, url := "https://chrome.example/adblock",
    lastChecked := "2024-01-02" }

/-- A group whose single store is strictly ahead of the submitted version. -/
def wAheadGroup : ExtensionGroup :=
  { name := "AdBlock", browsers := [wBrowserChrome], latestVersion := "1.0",
    isConsistent := true, releaseDate := none, submittedVersion := some "0.9" }

/-- A group whose submitted version is a whitespace-only string. -/
def wGroupWs : ExtensionGroup :=
  { name := "AdBlock", browsers := [wBrowserChrome], latestVersion := "1.0",
    isConsistent := true, releaseDate := none, submittedVersion := some " " }

/-- A group with no submission data at all. -/
def wGroupNoSub : ExtensionGroup :=
  { name := "AdBlock", browsers := [wBrowserChrome], latestVersion := "1.0",
    isConsistent := true, releaseDate := none, submittedVersion := none }

/-- A raw feed record carrying neither name field. -/
def wRawNameless : RawExtensionData :=
  { extension := none, name := none, version := "9.9", lastUpdated := "u",
    users := UsersVal.num 0, url := "n", lastChecked := "c" }

/-- A named raw feed record at version 1.0. -/
def wRawChrome : RawExtensionData :=
  { extension := some "AdBlock", name := none, version := "1.0",
    lastUpdated := "2024-01-01", users := UsersVal.num 100,
    url := "https://chrome.example/adblock", lastChecked := "2024-01-02" }

/-- A named raw feed record at version 1.1. -/
def wRawFirefox : RawExtensionData :=
  { extension := some "AdBlock", name := none, version := "1.1",
    lastUpdated := "2024-01-03", users := UsersVal.num 50,
    url := "https://firefox.example/adblock", lastChecked := "2024-01-02" }

/-- A concrete two-store feed. -/
def wApi : ApiResponse :=
  [("chrome", ApiEntry.stores [wRawChrome]), ("firefox", ApiEntry.stores [wRawFirefox])]

/-- The group wApi produces. -/
def wGroupOut : ExtensionGroup :=
  { name := "AdBlock",
    browsers := [toBrowserInfo "chrome" wRawChrome, toBrowserInfo "firefox" wRawFirefox],
    latestVersion := "1.1", isConsistent := false,
    releaseDate := none, submittedVersion := none }


/-! Helper lemmas. -/

theorem padGet_nil (i : Nat) : padGet [] i = 0 := by simp [padGet]

theorem padGet_cons_zero (x : Int) (xs : List Int) : padGet (x :: xs) 0 = x := by
  simp [padGet]

theorem padGet_cons_succ (x : Int) (xs : List Int) (i : Nat) :
    padGet (x :: xs) (i + 1) = padGet xs i := by simp [padGet]

theorem firstNonzero_eq_zero_iff (l : List Int) :
    firstNonzero l = 0 ↔ ∀ i, padGet l i = 0 := by
  induction l with
  | nil => simp [firstNonzero, padGet_nil]
  | cons b bs ih =>
    by_cases hb : b = 0
    · subst hb
      rw [firstNonzero, if_neg (by simp)]
      rw [ih]
      constructor
      · intro h i
        rcases i with _ | j
        · simp [padGet_cons_zero]
        · rw [padGet_cons_succ]; exact h j
      · intro h j
        have := h (j + 1)
        rwa [padGet_cons_succ] at this
    · rw [firstNonzero, if_pos hb]
      constructor
      · intro h; exact absurd h hb
      · intro h; exact absurd (by simpa [padGet_cons_zero] using h 0) hb

theorem firstNonzero_neg_iff (l : List Int) :
    firstNonzero l < 0 ↔ ∃ i, padGet l i < 0 ∧ ∀ j, j < i → padGet l j = 0 := by
  induction l with
  | nil =>
    simp only [firstNonzero, padGet_nil]
    constructor
    · omega
    · rintro ⟨i, h, -⟩; omega
  | cons b bs ih =>
    by_cases hb : b = 0
    · subst hb
      rw [firstNonzero, if_neg (by simp)]
      rw [ih]
      constructor
      · rintro ⟨i, hi, hj⟩
        refine ⟨i + 1, by simpa [padGet_cons_succ] using hi, ?_⟩
        intro j hj2
        rcases j with _ | k
        · simp [padGet_cons_zero]
        · rw [padGet_cons_succ]; exact hj k (by omega)
      · rintro ⟨i, hi, hj⟩
        rcases i with _ | k
        · rw [padGet_cons_zero] at hi; omega
        · refine ⟨k, by simpa [padGet_cons_succ] using hi, ?_⟩
          intro j hj2
          have := hj (j + 1) (by omega)
          rwa [padGet_cons_succ] at this
    · rw [firstNonzero, if_pos hb]
      constructor
      · intro h
        exact ⟨0, by simpa [padGet_cons_zero] using h, by intro j hj; omega⟩
      · rintro ⟨i, hi, hj⟩
        rcases i with _ | k
        · rwa [padGet_cons_zero] at hi
        · exact absurd (by simpa [padGet_cons_zero] using hj 0 (by omega)) hb

theorem firstNonzero_pos_iff (l : List Int) :
    0 < firstNonzero l ↔ ∃ i, 0 < padGet l i ∧ ∀ j, j < i → padGet l j = 0 := by
  induction l with
  | nil =>
    simp only [firstNonzero, padGet_nil]
    constructor
    · omega
    · rintro ⟨i, h, -⟩; omega
  | cons b bs ih =>
    by_cases hb : b = 0
    · subst hb
      rw [firstNonzero, if_neg (by simp)]
      rw [ih]
      constructor
      · rintro ⟨i, hi, hj⟩
        refine ⟨i + 1, by simpa [padGet_cons_succ] using hi, ?_⟩
        intro j hj2
        rcases j with _ | k
        · simp [padGet_cons_zero]
        · rw [padGet_cons_succ]; exact hj k (by omega)
      · rintro ⟨i, hi, hj⟩
        rcases i with _ | k
        · rw [padGet_cons_zero] at hi; omega
        · refine ⟨k, by simpa [padGet_cons_succ] using hi, ?_⟩
          intro j hj2
          have := hj (j + 1) (by omega)
          rwa [padGet_cons_succ] at this
    · rw [firstNonzero, if_pos hb]
      constructor
      · intro h
        exact ⟨0, by simpa [padGet_cons_zero] using h, by intro j hj; omega⟩
      · rintro ⟨i, hi, hj⟩
        rcases i with _ | k
        · rwa [padGet_cons_zero] at hi
        · exact absurd (by simpa [padGet_cons_zero] using hj 0 (by omega)) hb

theorem comparePadded_nil_right (l : List Int) : comparePadded l [] = firstNonzero l := by
  cases l with
  | nil => simp [comparePadded, firstNonzero]
  | cons a as => rfl

theorem comparePadded_eq_zero_iff (a b : List Int) :
    comparePadded a b = 0 ↔ ∀ i, padGet a i = padGet b i := by
  induction a, b using comparePadded.induct with
  | case1 bs =>
    rw [comparePadded]
    have h0 : (0 : Int) - firstNonzero bs = 0 ↔ firstNonzero bs = 0 := by omega
    rw [h0, firstNonzero_eq_zero_iff]
    constructor
    · intro h i; rw [padGet_nil]; exact (h i).symm
    · intro h i; rw [← padGet_nil i]; exact (h i).symm
  | case2 a as =>
    rw [comparePadded, firstNonzero_eq_zero_iff]
    constructor
    · intro h i; rw [padGet_nil]; exact h i
    · intro h i; rw [← padGet_nil i]; exact h i
  | case3 a as b bs h =>
    rw [comparePadded, if_pos h]
    constructor
    · intro hab; exact absurd (by omega) h
    · intro hall
      exact absurd (by simpa [padGet_cons_zero] using hall 0) h
  | case4 a as b bs h ih =>
    have hab : a = b := by simpa using h
    subst hab
    rw [comparePadded, if_neg (by simp)]
    rw [ih]
    constructor
    · intro hall i
      rcases i with _ | j
      · simp [padGet_cons_zero]
      · rw [padGet_cons_succ, padGet_cons_succ]; exact hall j
    · intro hall j
      have := hall (j + 1)
      rwa [padGet_cons_succ, padGet_cons_succ] at this



theorem comparePadded_neg_iff (a b : List Int) :
    comparePadded a b < 0 ↔
      ∃ i, padGet a i < padGet b i ∧ ∀ j, j < i → padGet a j = padGet b j := by
  induction a, b using comparePadded.induct with
  | case1 bs =>
    rw [comparePadded]
    have h0 : (0 : Int) - firstNonzero bs < 0 ↔ 0 < firstNonzero bs := by omega
    rw [h0, firstNonzero_pos_iff]
    constructor
    · rintro ⟨i, hi, hj⟩
      exact ⟨i, by simpa [padGet_nil] using hi, fun j hlt => by
        rw [padGet_nil]; exact (hj j hlt).symm⟩
    · rintro ⟨i, hi, hj⟩
      exact ⟨i, by simpa [padGet_nil] using hi, fun j hlt => by
        have := hj j hlt; rwa [padGet_nil, eq_comm] at this⟩
  | case2 a as =>
    rw [comparePadded, firstNonzero_neg_iff]
    constructor
    · rintro ⟨i, hi, hj⟩
      exact ⟨i, by simpa [padGet_nil] using hi, fun j hlt => by
        rw [padGet_nil]; exact hj j hlt⟩
    · rintro ⟨i, hi, hj⟩
      exact ⟨i, by simpa [padGet_nil] using hi, fun j hlt => by
        have := hj j hlt; rwa [padGet_nil] at this⟩
  | case3 a as b bs h =>
    rw [comparePadded, if_pos h]
    constructor
    · intro hab
      exact ⟨0, by simpa [padGet_cons_zero] using (by omega : a < b), fun j hj => by omega⟩
    · rintro ⟨i, hi, hj⟩
      rcases i with _ | k
      · have : a < b := by simpa [padGet_cons_zero] using hi
        omega
      · exact absurd (by simpa [padGet_cons_zero] using hj 0 (by omega)) h
  | case4 a as b bs h ih =>
    have hab : a = b := by simpa using h
    subst hab
    rw [comparePadded, if_neg (by simp)]
    rw [ih]
    constructor
    · rintro ⟨i, hi, hj⟩
      refine ⟨i + 1, by simpa [padGet_cons_succ] using hi, ?_⟩
      intro j hlt
      rcases j with _ | k
      · simp [padGet_cons_zero]
      · rw [padGet_cons_succ, padGet_cons_succ]; exact hj k (by omega)
    · rintro ⟨i, hi, hj⟩
      rcases i with _ | k
      · rw [padGet_cons_zero, padGet_cons_zero] at hi; omega
      · refine ⟨k, by simpa [padGet_cons_succ] using hi, ?_⟩
        intro j hlt
        have := hj (j + 1) (by omega)
        rwa [padGet_cons_succ, padGet_cons_succ] at this

theorem comparePadded_antisymm (a b : List Int) :
    comparePadded a b = - comparePadded b a := by
  induction a, b using comparePadded.induct with
  | case1 bs => rw [comparePadded, comparePadded_nil_right]; omega
  | case2 a as => rw [comparePadded_nil_right, comparePadded]; omega
  | case3 a as b bs h =>
    have hba : ¬ b = a := fun hba => h (by omega)
    rw [comparePadded, if_pos h, comparePadded, if_pos hba]
    omega
  | case4 a as b bs h ih =>
    have hab : a = b := by simpa using h
    subst hab
    rw [comparePadded, if_neg (by simp), comparePadded, if_neg (by simp)]
    exact ih

theorem comparePadded_self (a : List Int) : comparePadded a a = 0 := by
  have h := comparePadded_antisymm a a
  omega

theorem comparePadded_trans_lt_lt {a b c : List Int}
    (hab : comparePadded a b < 0) (hbc : comparePadded b c < 0) :
    comparePadded a c < 0 := by
  rw [comparePadded_neg_iff] at hab hbc ⊢
  obtain ⟨i, hi, hibefore⟩ := hab
  obtain ⟨k, hk, hkbefore⟩ := hbc
  rcases lt_trichotomy i k with hik | hik | hik
  · exact ⟨i, by rw [← hkbefore i hik]; exact hi,
      fun j hj => (hibefore j hj).trans (hkbefore j (by omega))⟩
  · subst hik
    exact ⟨i, hi.trans hk, fun j hj => (hibefore j hj).trans (hkbefore j hj)⟩
  · exact ⟨k, by rw [hibefore k hik]; exact hk,
      fun j hj => (hibefore j (by omega)).trans (hkbefore j hj)⟩

theorem comparePadded_trans_lt_eq {a b c : List Int}
    (hab : comparePadded a b < 0) (hbc : comparePadded b c = 0) :
    comparePadded a c < 0 := by
  rw [comparePadded_neg_iff] at hab ⊢
  rw [comparePadded_eq_zero_iff] at hbc
  obtain ⟨i, hi, hibefore⟩ := hab
  exact ⟨i, by rw [← hbc i]; exact hi, fun j hj => (hibefore j hj).trans (hbc j)⟩

theorem comparePadded_trans_eq_lt {a b c : List Int}
    (hab : comparePadded a b = 0) (hbc : comparePadded b c < 0) :
    comparePadded a c < 0 := by
  rw [comparePadded_neg_iff] at hbc ⊢
  rw [comparePadded_eq_zero_iff] at hab
  obtain ⟨k, hk, hkbefore⟩ := hbc
  exact ⟨k, by rw [hab k]; exact hk, fun j hj => (hab j).trans (hkbefore j hj)⟩

theorem comparePadded_trans_lt_le {a b c : List Int}
    (hab : comparePadded a b < 0) (hbc : comparePadded b c ≤ 0) :
    comparePadded a c < 0 := by
  rcases lt_or_eq_of_le hbc with hlt | heq
  · exact comparePadded_trans_lt_lt hab hlt
  · exact comparePadded_trans_lt_eq hab heq

theorem comparePadded_trans_le_le {a b c : List Int}
    (hab : comparePadded a b ≤ 0) (hbc : comparePadded b c ≤ 0) :
    comparePadded a c ≤ 0 := by
  rcases lt_or_eq_of_le hab with hlt | heq
  · exact le_of_lt (comparePadded_trans_lt_le hlt hbc)
  · rcases lt_or_eq_of_le hbc with hlt2 | heq2
    · exact le_of_lt (comparePadded_trans_eq_lt heq hlt2)
    · have h1 := (comparePadded_eq_zero_iff a b).mp heq
      have h2 := (comparePadded_eq_zero_iff b c).mp heq2
      exact le_of_eq ((comparePadded_eq_zero_iff a c).mpr (fun i => (h1 i).trans (h2 i)))

theorem compareVersions_antisymm (a b : String) :
    compareVersions a b = - compareVersions b a :=
  comparePadded_antisymm _ _

theorem compareVersions_self (a : String) : compareVersions a a = 0 :=
  comparePadded_self _

theorem splitDotL_ne_nil (l : List Char) : splitDotL l ≠ [] := by
  cases l with
  | nil => simp [splitDotL]
  | cons c cs =>
    rw [splitDotL]
    by_cases h : c = '.'
    · simp [h]
    · rw [if_neg h]
      cases hr : splitDotL cs with
      | nil => simp
      | cons r rs => simp

theorem splitDotL_no_dot_mem (l : List Char) : ∀ p ∈ splitDotL l, '.' ∉ p := by
  induction l with
  | nil =>
    intro p hp
    simp only [splitDotL, List.mem_singleton] at hp
    subst hp; simp
  | cons c cs ih =>
    intro p hp
    rw [splitDotL] at hp
    by_cases h : c = '.'
    · rw [if_pos h] at hp
      rcases List.mem_cons.mp hp with h1 | h2
      · subst h1; simp
      · exact ih p h2
    · rw [if_neg h] at hp
      cases hr : splitDotL cs with
      | nil => exact absurd hr (splitDotL_ne_nil cs)
      | cons r rs =>
        rw [hr] at hp
        rcases List.mem_cons.mp hp with h1 | h2
        · subst h1
          intro hmem
          rcases List.mem_cons.mp hmem with hcs | hr2
          · exact h hcs.symm
          · exact ih r (by rw [hr]; exact List.mem_cons_self r rs) hr2
        · exact ih p (by rw [hr]; exact List.mem_cons.mpr (Or.inr h2))

theorem splitDotL_of_no_dot (l : List Char) (h : '.' ∉ l) : splitDotL l = [l] := by
  induction l with
  | nil => rfl
  | cons c cs ih =>
    have hc : ¬ c = '.' := fun hc => h (by rw [hc]; exact List.mem_cons_self '.' cs)
    have hcs : '.' ∉ cs := fun hm => h (List.mem_cons.mpr (Or.inr hm))
    rw [splitDotL, if_neg hc, ih hcs]

theorem splitDotL_append (x t : List Char) (hx : '.' ∉ x) :
    splitDotL (x ++ '.' :: t) = x :: splitDotL t := by
  induction x with
  | nil => simp [splitDotL]
  | cons c cs ih =>
    have hc : ¬ c = '.' := fun hc => hx (by rw [hc]; exact List.mem_cons_self '.' cs)
    have hcs : '.' ∉ cs := fun hm => hx (List.mem_cons.mpr (Or.inr hm))
    rw [List.cons_append, splitDotL, if_neg hc, ih hcs]

theorem splitDotL_joinDotL (ls : List (List Char)) (hne : ls ≠ [])
    (hdot : ∀ p ∈ ls, '.' ∉ p) : splitDotL (joinDotL ls) = ls := by
  induction ls with
  | nil => exact absurd rfl hne
  | cons x xs ih =>
    cases xs with
    | nil => exact splitDotL_of_no_dot x (hdot x (List.mem_cons_self x []))
    | cons y ys =>
      rw [joinDotL, splitDotL_append x _ (hdot x (List.mem_cons_self x (y :: ys)))]
      rw [ih (by simp) (fun p hp => hdot p (List.mem_cons.mpr (Or.inr hp)))]

theorem splitDot_joinDot (parts : List String) (hne : parts ≠ [])
    (hdot : ∀ p ∈ parts, '.' ∉ p.data) : splitDot (joinDot parts) = parts := by
  unfold splitDot joinDot
  rw [show (String.mk (joinDotL (parts.map String.data))).data
      = joinDotL (parts.map String.data) from rfl]
  rw [splitDotL_joinDotL _ (by simpa using hne) (by
    intro p hp
    rcases List.mem_map.mp hp with ⟨q, hq, rfl⟩
    exact hdot q hq)]
  rw [List.map_map]
  conv_rhs => rw [← List.map_id parts]
  apply List.map_congr_left
  intro s hs
  cases s; rfl

theorem digitChar_lt10_ne_dot : ∀ k, k < 10 → digitChar k ≠ '.' := by decide

theorem natToCharsAux_ne_dot (fuel : Nat) : ∀ (n : Nat) (acc : List Char),
    (∀ c ∈ acc, c ≠ '.') → ∀ c ∈ natToCharsAux fuel n acc, c ≠ '.' := by
  induction fuel with
  | zero => intro n acc hacc; exact hacc
  | succ fuel ih =>
    intro n acc hacc
    have hacc2 : ∀ c ∈ digitChar (n % 10) :: acc, c ≠ '.' := by
      intro c hc
      rcases List.mem_cons.mp hc with h1 | h2
      · subst h1; exact digitChar_lt10_ne_dot _ (Nat.mod_lt _ (by omega))
      · exact hacc c h2
    by_cases h : n < 10
    · rw [natToCharsAux, if_pos h]; exact hacc2
    · rw [natToCharsAux, if_neg h]; exact ih (n / 10) _ hacc2

theorem natToChars_ne_dot (n : Nat) : ∀ c ∈ natToChars n, c ≠ '.' :=
  natToCharsAux_ne_dot (n + 1) n [] (by simp)

theorem intToChars_ne_dot (v : Int) : ∀ c ∈ intToChars v, c ≠ '.' := by
  cases v with
  | ofNat n => exact natToChars_ne_dot n
  | negSucc n =>
    intro c hc
    rcases List.mem_cons.mp hc with h1 | h2
    · subst h1; decide
    · exact natToChars_ne_dot _ c h2

theorem renderJSNum_ne_dot (p : JSNum) : '.' ∉ renderJSNum p := by
  cases p with
  | none => decide
  | some v => exact fun h => intToChars_ne_dot v '.' h rfl

theorem trimChars_eq_nil_iff (l : List Char) :
    trimChars l = [] ↔ ∀ c ∈ l, jsWhitespace c := by
  unfold trimChars
  rw [List.reverse_eq_nil_iff, List.dropWhile_eq_nil_iff]
  constructor
  · intro h c hc
    have hsplit := (List.takeWhile_append_dropWhile jsWhitespace l).symm
    rcases List.mem_append.mp (by rw [← hsplit]; exact hc) with h1 | h2
    · exact List.mem_takeWhile_imp h1
    · exact h c (List.mem_reverse.mpr h2)
  · intro h
    have hnil : l.dropWhile jsWhitespace = [] := List.dropWhile_eq_nil_iff.mpr h
    rw [hnil]
    intro c hc
    simp at hc

theorem jsTrim_eq_empty_iff (s : String) :
    jsTrim s = "" ↔ ∀ c ∈ s.data, jsWhitespace c := by
  rw [← trimChars_eq_nil_iff]
  unfold jsTrim
  constructor
  · intro h
    have := congrArg String.data h
    simpa using this
  · intro h
    rw [h]

theorem jsNumber_all_ws (s : String) (h : ∀ c ∈ s.data, jsWhitespace c) :
    jsNumber s = some 0 := by
  unfold jsNumber
  rw [show trimChars s.data = [] from (trimChars_eq_nil_iff s.data).mpr h]

theorem splitDot_ne_nil (s : String) : splitDot s ≠ [] := by
  unfold splitDot
  intro h
  exact splitDotL_ne_nil s.data (List.map_eq_nil_iff.mp h)

theorem splitDot_no_dot (s : String) : ∀ p ∈ splitDot s, '.' ∉ p.data := by
  unfold splitDot
  intro p hp
  rcases List.mem_map.mp hp with ⟨q, hq, rfl⟩
  exact splitDotL_no_dot_mem s.data q hq

theorem splitDot_sanitize (s : String) :
    splitDot (sanitizeVersion s)
      = (splitDot s).map (fun seg => if jsNumber seg = none then "0" else seg) := by
  unfold sanitizeVersion
  apply splitDot_joinDot
  · simp [splitDot_ne_nil s]
  · intro p hp
    rcases List.mem_map.mp hp with ⟨q, hq, rfl⟩
    by_cases hq2 : jsNumber q = none
    · rw [if_pos hq2]; decide
    · rw [if_neg hq2]; exact splitDot_no_dot s q hq

theorem compareVersions_sanitize (a b : String) :
    compareVersions a b = compareVersions (sanitizeVersion a) (sanitizeVersion b) := by
  have key : ∀ s : String,
      (versionParts (sanitizeVersion s)).map jsOr0 = (versionParts s).map jsOr0 := by
    intro s
    unfold versionParts
    rw [splitDot_sanitize]
    simp only [List.map_map]
    apply List.map_congr_left
    intro seg hseg
    simp only [Function.comp]
    by_cases h : jsNumber seg = none
    · rw [if_pos h, h]; decide
    · rw [if_neg h]
  unfold compareVersions
  rw [key a, key b]

theorem bumpAt_length (l : List JSNum) (i : Nat) : (bumpAt l i).length = l.length := by
  induction l generalizing i with
  | nil => rfl
  | cons x xs ih =>
    cases i with
    | zero => simp [bumpAt]
    | succ k => simp [bumpAt, ih]

theorem splitDot_renderParts (parts : List JSNum) (hne : parts ≠ []) :
    splitDot (renderParts parts) = parts.map (fun p => String.mk (renderJSNum p)) := by
  unfold renderParts splitDot
  rw [show (String.mk (joinDotL (parts.map renderJSNum))).data
      = joinDotL (parts.map renderJSNum) from rfl]
  rw [splitDotL_joinDotL _ (by simpa using hne) (by
    intro p hp
    rcases List.mem_map.mp hp with ⟨q, hq, rfl⟩
    exact renderJSNum_ne_dot q)]
  rw [List.map_map]
  rfl

theorem seqUpdate_spec_iff (current target : String) :
    isSequentialVersionUpdate current target = true ↔ SpecSequential current target := by
  simp only [isSequentialVersionUpdate, SpecSequential, specCandidate]
  rw [List.any_eq_true]
  constructor
  · rintro ⟨i, hi, hb⟩
    exact ⟨i, List.mem_range.mp hi, by simpa using hb⟩
  · rintro ⟨i, hi, hb⟩
    exact ⟨i, List.mem_range.mpr hi, by simpa using hb⟩

theorem seqUpdate_shape_false (current target : String)
    (h : (splitDot current).length ≠ (splitDot target).length) :
    isSequentialVersionUpdate current target = false := by
  by_contra hne
  have htrue : isSequentialVersionUpdate current target = true := by
    cases hx : isSequentialVersionUpdate current target
    · exact absurd hx hne
    · rfl
  obtain ⟨i, hi, hc⟩ := (seqUpdate_spec_iff current target).mp htrue
  apply h
  rw [← hc]
  unfold specCandidate
  have hne2 : bumpAt (versionParts current) i ≠ [] := by
    intro h0
    have hlen := bumpAt_length (versionParts current) i
    rw [h0] at hlen
    simp only [List.length_nil] at hlen
    omega
  rw [splitDot_renderParts _ hne2, List.length_map, bumpAt_length]
  unfold versionParts
  rw [List.length_map]

theorem comparePadded_trans_le_lt {a b c : List Int}
    (hab : comparePadded a b ≤ 0) (hbc : comparePadded b c < 0) :
    comparePadded a c < 0 := by
  rcases lt_or_eq_of_le hab with hlt | heq
  · exact comparePadded_trans_lt_lt hlt hbc
  · exact comparePadded_trans_eq_lt heq hbc

theorem compareVersions_trans_lt_le {a b c : String}
    (hab : compareVersions a b < 0) (hbc : compareVersions b c ≤ 0) :
    compareVersions a c < 0 :=
  comparePadded_trans_lt_le hab hbc

theorem compareVersions_trans_le_lt {a b c : String}
    (hab : compareVersions a b ≤ 0) (hbc : compareVersions b c < 0) :
    compareVersions a c < 0 :=
  comparePadded_trans_le_lt hab hbc

theorem compareVersions_trans_le_le {a b c : String}
    (hab : compareVersions a b ≤ 0) (hbc : compareVersions b c ≤ 0) :
    compareVersions a c ≤ 0 :=
  comparePadded_trans_le_le hab hbc

theorem compareVersions_neg_of_pos {a b : String}
    (h : 0 < compareVersions a b) : compareVersions b a < 0 := by
  have := compareVersions_antisymm a b
  omega



theorem latestVersionOf_cons (v : String) (vs : List String) :
    latestVersionOf (v :: vs) = some (vs.foldl latestStep v) := rfl

theorem foldLatest_spec (vs : List String) : ∀ (v : String),
    (vs.foldl latestStep v) ∈ (v :: vs)
    ∧ (∀ x ∈ v :: vs, compareVersions x (vs.foldl latestStep v) ≤ 0)
    ∧ ∃ i : Nat, (v :: vs)[i]? = some (vs.foldl latestStep v)
        ∧ ∀ j : Nat, j < i → ∀ x, (v :: vs)[j]? = some x →
            compareVersions x (vs.foldl latestStep v) < 0 := by
  induction vs with
  | nil =>
    intro v
    refine ⟨List.mem_cons_self v [], ?_, 0, by simp, ?_⟩
    · intro x hx
      rcases List.mem_cons.mp hx with rfl | h2
      · rw [List.foldl_nil, compareVersions_self]
      · simp at h2
    · intro j hj; omega
  | cons w ws ih =>
    intro v
    rw [List.foldl_cons]
    by_cases hwv : compareVersions w v > 0
    · rw [show latestStep v w = w from if_pos hwv]
      obtain ⟨hmem, hmax, i0, hi0, hbef⟩ := ih w
      have hvw : compareVersions v w < 0 := compareVersions_neg_of_pos hwv
      have hwr : compareVersions w (ws.foldl latestStep w) ≤ 0 :=
        hmax w (List.mem_cons_self w ws)
      have hvr : compareVersions v (ws.foldl latestStep w) < 0 :=
        compareVersions_trans_lt_le hvw hwr
      refine ⟨List.mem_cons.mpr (Or.inr hmem), ?_, i0 + 1, ?_, ?_⟩
      · intro x hx
        rcases List.mem_cons.mp hx with rfl | h2
        · exact le_of_lt hvr
        · exact hmax x h2
      · rw [List.getElem?_cons_succ]; exact hi0
      · intro j hj x hx
        rcases j with _ | j2
        · rw [List.getElem?_cons_zero, Option.some.injEq] at hx
          subst hx; exact hvr
        · rw [List.getElem?_cons_succ] at hx
          exact hbef j2 (by omega) x hx
    · rw [show latestStep v w = v from if_neg hwv]
      obtain ⟨hmem, hmax, i0, hi0, hbef⟩ := ih v
      have hwv2 : compareVersions w v ≤ 0 := by omega
      have hvr : compareVersions v (ws.foldl latestStep v) ≤ 0 :=
        hmax v (List.mem_cons_self v ws)
      have hwr : compareVersions w (ws.foldl latestStep v) ≤ 0 :=
        compareVersions_trans_le_le hwv2 hvr
      refine ⟨?_, ?_, ?_⟩
      · rcases List.mem_cons.mp hmem with heq | h2
        · rw [heq]; exact List.mem_cons_self _ _
        · exact List.mem_cons.mpr (Or.inr (List.mem_cons.mpr (Or.inr h2)))
      · intro x hx
        rcases List.mem_cons.mp hx with rfl | h2
        · exact hvr
        · rcases List.mem_cons.mp h2 with rfl | h3
          · exact hwr
          · exact hmax x (List.mem_cons.mpr (Or.inr h3))
      · rcases i0 with _ | k
        · refine ⟨0, ?_, ?_⟩
          · rw [List.getElem?_cons_zero] at hi0 ⊢
            exact hi0
          · intro j hj; omega
        · rw [List.getElem?_cons_succ] at hi0
          have hvr2 : compareVersions v (ws.foldl latestStep v) < 0 :=
            hbef 0 (by omega) v (by rw [List.getElem?_cons_zero])
          refine ⟨k + 2, ?_, ?_⟩
          · rw [List.getElem?_cons_succ, List.getElem?_cons_succ]
            exact hi0
          · intro j hj x hx
            rcases j with _ | j2
            · rw [List.getElem?_cons_zero, Option.some.injEq] at hx
              subst hx; exact hvr2
            · rcases j2 with _ | j3
              · rw [List.getElem?_cons_succ, List.getElem?_cons_zero,
                  Option.some.injEq] at hx
                subst hx
                exact compareVersions_trans_le_lt hwv2 hvr2
              · rw [List.getElem?_cons_succ, List.getElem?_cons_succ] at hx
                exact hbef (j3 + 1) (by omega) x (by
                  rw [List.getElem?_cons_succ]; exact hx)

theorem mapOption_mem {α β : Type} {f : α → Option β} :
    ∀ (l : List α) (ys : List β), mapOption f l = some ys →
      ∀ y ∈ ys, ∃ x ∈ l, f x = some y := by
  intro l
  induction l with
  | nil =>
    intro ys h y hy
    rw [mapOption, Option.some.injEq] at h
    subst h; simp at hy
  | cons x xs ih =>
    intro ys h y hy
    rw [mapOption] at h
    cases hfx : f x with
    | none => rw [hfx] at h; simp at h
    | some z =>
      rw [hfx] at h
      cases hrec : mapOption f xs with
      | none => rw [hrec] at h; simp at h
      | some zs =>
        rw [hrec, Option.some.injEq] at h
        subst h
        rcases List.mem_cons.mp hy with rfl | hy2
        · exact ⟨x, List.mem_cons_self x xs, hfx⟩
        · obtain ⟨x2, hx2, hfx2⟩ := ih zs hrec y hy2
          exact ⟨x2, List.mem_cons.mpr (Or.inr hx2), hfx2⟩

theorem mapOption_isSome {α β : Type} {f : α → Option β} :
    ∀ (l : List α), (∀ x ∈ l, f x ≠ none) → ∃ ys, mapOption f l = some ys := by
  intro l
  induction l with
  | nil => exact fun _ => ⟨[], rfl⟩
  | cons x xs ih =>
    intro h
    obtain ⟨ys, hys⟩ := ih (fun z hz => h z (List.mem_cons.mpr (Or.inr hz)))
    cases hfx : f x with
    | none => exact absurd hfx (h x (List.mem_cons_self x xs))
    | some y =>
      refine ⟨y :: ys, ?_⟩
      rw [mapOption, hfx, hys]

theorem foldl_preserve {β σ : Type} (P : σ → Prop) (f : σ → β → σ)
    (hstep : ∀ s b, P s → P (f s b)) :
    ∀ (l : List β) (s : σ), P s → P (l.foldl f s) := by
  intro l
  induction l with
  | nil => exact fun s h => h
  | cons x xs ih => exact fun s h => ih _ (hstep s x h)

theorem addToGroups_nonempty :
    ∀ (gs : List (String × List BrowserInfo)) (k : String) (b : BrowserInfo),
      (∀ e ∈ gs, e.2 ≠ []) → ∀ e ∈ addToGroups gs k b, e.2 ≠ [] := by
  intro gs
  induction gs with
  | nil =>
    intro k b h e he
    rw [addToGroups, List.mem_singleton] at he
    subst he; simp
  | cons g rest ih =>
    intro k b h e he
    obtain ⟨gk, gbs⟩ := g
    rw [addToGroups] at he
    by_cases hk : gk = k
    · rw [if_pos hk] at he
      rcases List.mem_cons.mp he with rfl | h2
      · simp
      · exact h e (List.mem_cons.mpr (Or.inr h2))
    · rw [if_neg hk] at he
      rcases List.mem_cons.mp he with rfl | h2
      · exact h _ (List.mem_cons_self _ _)
      · exact ih k b (fun e2 he2 => h e2 (List.mem_cons.mpr (Or.inr he2))) e h2

theorem addRecord_nonempty (gs : List (String × List BrowserInfo))
    (browserName : String) (ext : RawExtensionData)
    (h : ∀ e ∈ gs, e.2 ≠ []) : ∀ e ∈ addRecord gs browserName ext, e.2 ≠ [] := by
  intro e he
  rw [addRecord] at he
  cases hpick : pickExtensionName ext with
  | none => rw [hpick] at he; exact h e he
  | some nm => rw [hpick] at he; exact addToGroups_nonempty gs _ _ h e he

theorem collectGroups_nonempty (apiData : ApiResponse) :
    ∀ e ∈ collectGroups apiData, e.2 ≠ [] := by
  unfold collectGroups
  refine foldl_preserve
    (fun gs : List (String × List BrowserInfo) => ∀ e ∈ gs, e.2 ≠ []) _ ?_ apiData [] (by simp)
  intro gs entry h
  obtain ⟨browserName, ae⟩ := entry
  cases ae with
  | stores exts =>
    by_cases hb : browserName = "gitlab"
    · simpa [hb] using h
    · simp only [hb, if_false]
      exact foldl_preserve
        (fun gs : List (String × List BrowserInfo) => ∀ e ∈ gs, e.2 ≠ []) _
        (fun s b hp => addRecord_nonempty s browserName b hp) exts gs h
  | registry entries => exact h

theorem buildGroup_inv (gd : List (String × GitlabInfo)) (entry : String × List BrowserInfo)
    (g : ExtensionGroup) (h : buildGroup gd entry = some g) :
    g.browsers = entry.2
    ∧ latestVersionOf (entry.2.map (fun b => b.version)) = some g.latestVersion := by
  obtain ⟨k, bs⟩ := entry
  simp only [buildGroup] at h
  cases hlv : latestVersionOf (bs.map fun b => b.version) with
  | none => rw [hlv] at h; simp at h
  | some lv =>
    rw [hlv, Option.some.injEq] at h
    subst h
    exact ⟨rfl, rfl⟩

theorem buildGroup_ne_none (gd : List (String × GitlabInfo))
    (entry : String × List BrowserInfo) (hne : entry.2 ≠ []) :
    buildGroup gd entry ≠ none := by
  obtain ⟨k, bs⟩ := entry
  cases bs with
  | nil => exact absurd rfl hne
  | cons b bs2 =>
    simp only [buildGroup, List.map_cons, latestVersionOf_cons]
    simp

theorem processExtensionData_total (apiData : ApiResponse) :
    ∃ gs, processExtensionData apiData = some gs ∧ ∀ g ∈ gs, g.browsers ≠ [] := by
  unfold processExtensionData
  have hne := collectGroups_nonempty apiData
  obtain ⟨gs, hgs⟩ := mapOption_isSome (collectGroups apiData)
    (fun e he => buildGroup_ne_none (gitlabOf apiData) e (hne e he))
  refine ⟨gs, hgs, ?_⟩
  intro g hg
  obtain ⟨entry, hentry, hbuild⟩ := mapOption_mem _ _ hgs g hg
  obtain ⟨hbrowsers, _⟩ := buildGroup_inv _ _ _ hbuild
  rw [hbrowsers]
  exact hne entry hentry

theorem latestVersion_props (apiData : ApiResponse) (gs : List ExtensionGroup)
    (hgs : processExtensionData apiData = some gs) :
    ∀ g ∈ gs,
      g.latestVersion ∈ g.browsers.map (fun b => b.version)
      ∧ (∀ v ∈ g.browsers.map (fun b => b.version), compareVersions v g.latestVersion ≤ 0)
      ∧ ∃ i : Nat, (g.browsers.map (fun b => b.version))[i]? = some g.latestVersion
          ∧ ∀ j : Nat, j < i → ∀ v, (g.browsers.map (fun b => b.version))[j]? = some v →
              compareVersions v g.latestVersion < 0 := by
  intro g hg
  unfold processExtensionData at hgs
  obtain ⟨entry, hentry, hbuild⟩ := mapOption_mem _ _ hgs g hg
  obtain ⟨hbrowsers, hlatest⟩ := buildGroup_inv _ _ _ hbuild
  rw [hbrowsers]
  cases hvs : entry.2.map (fun b => b.version) with
  | nil => rw [hvs] at hlatest; simp [latestVersionOf] at hlatest
  | cons v vs =>
    rw [hvs] at hlatest
    rw [latestVersionOf_cons, Option.some.injEq] at hlatest
    obtain ⟨h1, h2, h3⟩ := foldLatest_spec vs v
    rw [← hlatest]
    exact ⟨h1, h2, h3⟩

theorem pickExtensionName_none (r : RawExtensionData)
    (hext : r.extension = none) (hname : r.name = none) :
    pickExtensionName r = none := by
  simp [pickExtensionName, truthyStr, hext, hname]

theorem addRecord_skip (gs : List (String × List BrowserInfo)) (browserName : String)
    (r : RawExtensionData) (hpick : pickExtensionName r = none) :
    addRecord gs browserName r = gs := by
  unfold addRecord
  rw [hpick]

theorem inner_fold_drop (browserName : String) (xs ys : List RawExtensionData)
    (r : RawExtensionData) (hpick : pickExtensionName r = none)
    (acc : List (String × List BrowserInfo)) :
    (xs ++ r :: ys).foldl (fun gs ext => addRecord gs browserName ext) acc
      = (xs ++ ys).foldl (fun gs ext => addRecord gs browserName ext) acc := by
  rw [List.foldl_append, List.foldl_append, List.foldl_cons,
    addRecord_skip _ _ _ hpick]

theorem collectGroups_drop (pre post : ApiResponse) (store : String)
    (xs ys : List RawExtensionData) (r : RawExtensionData)
    (hpick : pickExtensionName r = none) :
    collectGroups (pre ++ (store, ApiEntry.stores (xs ++ r :: ys)) :: post)
      = collectGroups (pre ++ (store, ApiEntry.stores (xs ++ ys)) :: post) := by
  unfold collectGroups
  rw [List.foldl_append, List.foldl_append, List.foldl_cons, List.foldl_cons]
  congr 1
  show (if store = "gitlab" then _
    else (xs ++ r :: ys).foldl (fun gs ext => addRecord gs store ext) _)
    = (if store = "gitlab" then _
      else (xs ++ ys).foldl (fun gs ext => addRecord gs store ext) _)
  by_cases hs : store = "gitlab"
  · rw [if_pos hs, if_pos hs]
  · rw [if_neg hs, if_neg hs, inner_fold_drop store xs ys r hpick]

theorem gitlabOf_stores_middle (pre post : ApiResponse) (store : String)
    (l l2 : List RawExtensionData) :
    gitlabOf (pre ++ (store, ApiEntry.stores l) :: post)
      = gitlabOf (pre ++ (store, ApiEntry.stores l2) :: post) := by
  induction pre with
  | nil =>
    unfold gitlabOf lookupEntry
    by_cases hs : store = "gitlab"
    · rw [List.nil_append, List.nil_append]
      simp only [hs, if_true]
    · rw [List.nil_append, List.nil_append]
      simp only [hs, if_false]
  | cons e pre ih =>
    obtain ⟨k, v⟩ := e
    by_cases hk : k = "gitlab"
    · rw [List.cons_append, List.cons_append]
      unfold gitlabOf
      rw [show lookupEntry "gitlab" ((k, v) :: (pre ++ (store, ApiEntry.stores l) :: post))
          = some v from by rw [lookupEntry, if_pos hk]]
      rw [show lookupEntry "gitlab" ((k, v) :: (pre ++ (store, ApiEntry.stores l2) :: post))
          = some v from by rw [lookupEntry, if_pos hk]]
    · rw [List.cons_append, List.cons_append]
      have hstep : ∀ (rest : ApiResponse), gitlabOf ((k, v) :: rest) = gitlabOf rest := by
        intro rest
        unfold gitlabOf
        rw [show lookupEntry "gitlab" ((k, v) :: rest) = lookupEntry "gitlab" rest from by
          rw [lookupEntry, if_neg hk]]
      rw [hstep, hstep, ih]

theorem processExtensionData_drop_nameless (pre post : ApiResponse) (store : String)
    (xs ys : List RawExtensionData) (r : RawExtensionData)
    (hext : r.extension = none) (hname : r.name = none) :
    processExtensionData (pre ++ (store, ApiEntry.stores (xs ++ r :: ys)) :: post)
      = processExtensionData (pre ++ (store, ApiEntry.stores (xs ++ ys)) :: post) := by
  have hpick := pickExtensionName_none r hext hname
  unfold processExtensionData
  rw [collectGroups_drop pre post store xs ys r hpick,
    gitlabOf_stores_middle pre post store (xs ++ r :: ys) (xs ++ ys)]

theorem statusLive_of_blank_submission (group : ExtensionGroup)
    (h : group.submittedVersion = none
      ∨ ∃ s, group.submittedVersion = some s ∧ jsTrim s = "") :
    determineGroupStatus group
      = { status := GroupStatus.live, message := "No submission data" } := by
  rcases h with h | ⟨s, hs, hts⟩
  · simp only [determineGroupStatus, h]
  · simp only [determineGroupStatus, hs]
    rw [if_pos hts]

theorem groupStatus_mismatch_iff (group : ExtensionGroup) (s : String)
    (hsub : group.submittedVersion = some s) (hne : jsTrim s ≠ "")
    (hnotall : ¬ ∀ b ∈ group.browsers, compareVersions b.version s = 0) :
    ((∃ b ∈ group.browsers, compareVersions b.version s < 0
        ∧ isSequentialVersionUpdate b.version s = false) →
      determineGroupStatus group
        = { status := GroupStatus.mismatch, message := "Version mismatch detected" })
    ∧ (¬ (∃ b ∈ group.browsers, compareVersions b.version s < 0
        ∧ isSequentialVersionUpdate b.version s = false) →
      determineGroupStatus group
        = { status := GroupStatus.pending, message := "Updates pending approval" }) := by
  have hall : (group.browsers.all (fun b => compareVersions b.version s == 0)) ≠ true := by
    intro hcontra
    rw [List.all_eq_true] at hcontra
    exact hnotall (fun b hb => by simpa using hcontra b hb)
  have hany : (group.browsers.any (fun b =>
        if compareVersions b.version s ≥ 0 then false
        else ! isSequentialVersionUpdate b.version s)) = true
      ↔ (∃ b ∈ group.browsers, compareVersions b.version s < 0
        ∧ isSequentialVersionUpdate b.version s = false) := by
    rw [List.any_eq_true]
    constructor
    · rintro ⟨b, hb, hpred⟩
      by_cases hge : compareVersions b.version s ≥ 0
      · rw [if_pos hge] at hpred
        exact absurd hpred (by simp)
      · rw [if_neg hge] at hpred
        exact ⟨b, hb, by omega, by simpa using hpred⟩
    · rintro ⟨b, hb, hlt, hseq⟩
      refine ⟨b, hb, ?_⟩
      rw [if_neg (by omega)]
      simp [hseq]
  constructor
  · intro hex
    simp only [determineGroupStatus, hsub]
    rw [if_neg hne, if_neg hall, if_pos (hany.mpr hex)]
  · intro hnex
    simp only [determineGroupStatus, hsub]
    rw [if_neg hne, if_neg hall, if_neg (fun h => hnex (hany.mp h))]

theorem browserRowStatus_classification (browser : BrowserInfo) (group : ExtensionGroup) :
    (group.submittedVersion = none →
      (determineBrowserRowStatus browser group).status = "✓ LIVE")
    ∧ (group.submittedVersion = some "" →
      (determineBrowserRowStatus browser group).status = "✓ LIVE")
    ∧ (∀ s, group.submittedVersion = some s → s ≠ "" →
        (compareVersions browser.version s = 0 →
          (determineBrowserRowStatus browser group).status = "✓ LIVE")
        ∧ (compareVersions browser.version s < 0 →
            isSequentialVersionUpdate browser.version s = true →
          (determineBrowserRowStatus browser group).status = "○ PENDING")
        ∧ (compareVersions browser.version s < 0 →
            isSequentialVersionUpdate browser.version s = false →
          (determineBrowserRowStatus browser group).status = "⚠ MISMATCH")
        ∧ (0 < compareVersions browser.version s →
          (determineBrowserRowStatus browser group).status = "⚠ MISMATCH"))
    ∧ (browser.version = "1.0" → group.submittedVersion = some "0.9" →
      (determineBrowserRowStatus browser group).status = "⚠ MISMATCH") := by
  refine ⟨?_, ?_, ?_, ?_⟩
  · intro h
    simp only [determineBrowserRowStatus, h]
  · intro h
    simp only [determineBrowserRowStatus, h]
    simp
  · intro s hsub hne
    refine ⟨?_, ?_, ?_, ?_⟩
    · intro hcmp
      simp only [determineBrowserRowStatus, hsub]
      rw [if_neg hne, if_pos (by simp [hcmp])]
    · intro hcmp hseq
      simp only [determineBrowserRowStatus, hsub]
      rw [if_neg hne, if_neg (by simp; omega), if_pos hcmp, if_pos hseq]
    · intro hcmp hseq
      simp only [determineBrowserRowStatus, hsub]
      rw [if_neg hne, if_neg (by simp; omega), if_pos hcmp, if_neg (by simp [hseq])]
    · intro hcmp
      simp only [determineBrowserRowStatus, hsub]
      rw [if_neg hne, if_neg (by simp; omega), if_neg (by omega)]
  · intro hver hsub
    simp only [determineBrowserRowStatus, hsub]
    rw [if_neg (by decide), hver]
    rw [if_neg (by decide), if_neg (by decide)]

theorem whitespace_submission_disagreement (group : ExtensionGroup) (s : String)
    (browser : BrowserInfo) (hsub : group.submittedVersion = some s)
    (hne : s ≠ "") (hws : jsTrim s = "") (hver : browser.version = "1.0") :
    determineGroupStatus group
      = { status := GroupStatus.live, message := "No submission data" }
    ∧ (determineBrowserRowStatus browser group).status = "⚠ MISMATCH" := by
  have hall : ∀ c ∈ s.data, jsWhitespace c := (jsTrim_eq_empty_iff s).mp hws
  have hnum : jsNumber s = some 0 := jsNumber_all_ws s hall
  have hnodot : '.' ∉ s.data := by
    intro hmem
    have hw := hall '.' hmem
    revert hw
    decide
  have hsplit : splitDot s = [s] := by
    unfold splitDot
    rw [splitDotL_of_no_dot s.data hnodot]
    cases s
    rfl
  have hcmp : compareVersions "1.0" s = 1 := by
    unfold compareVersions versionParts
    rw [hsplit, show splitDot "1.0" = ["1", "0"] from by decide]
    simp only [List.map_cons, List.map_nil]
    rw [hnum, show jsNumber "1" = some 1 from by decide,
      show jsNumber "0" = some 0 from by decide]
    decide
  refine ⟨statusLive_of_blank_submission group (Or.inr ⟨s, hsub, hws⟩), ?_⟩
  simp only [determineBrowserRowStatus, hsub]
  rw [if_neg hne, hver, hcmp]
  rw [if_neg (by decide), if_neg (by decide)]

/-! Claim theorems.  Each theorem settles one claim of the specification of
the reconciliation core; counterexamples and witnesses evaluate the embedded
functions at concrete inputs. -/

/-- Claim C1, counterexample: a group whose single store is strictly ahead of
the submitted version (compareVersions is 1 > 0) and whose versions are not
all equal to it is classified pending, not mismatch — the mismatch predicate
of determineGroupStatus skips every store with a non-negative comparison. -/
theorem aheadStore_pending_counterexample :
    wAheadGroup.submittedVersion = some "0.9"
    ∧ jsTrim "0.9" ≠ ""
    ∧ (∃ b ∈ wAheadGroup.browsers, 0 < compareVersions b.version "0.9")
    ∧ ¬ (∀ b ∈ wAheadGroup.browsers, compareVersions b.version "0.9" = 0)
    ∧ (determineGroupStatus wAheadGroup).status ≠ GroupStatus.mismatch
    ∧ determineGroupStatus wAheadGroup
        = { status := GroupStatus.pending, message := "Updates pending approval" } := by
  refine ⟨rfl, by decide, ⟨wBrowserChrome, by decide, by decide⟩, by decide, by decide, by decide⟩

/-- Claim C1 (amended): for a group with a present (non-blank) submitted
version whose stores are not all equal to it, determineGroupStatus returns
mismatch exactly when some store is strictly behind the submitted version and
is not a sequential predecessor of it; otherwise it returns pending.  A store
strictly ahead of the submitted version does not force mismatch. -/
theorem groupStatus_mismatch_iff_nonseq_behind (group : ExtensionGroup) (s : String)
    (hsub : group.submittedVersion = some s) (hne : jsTrim s ≠ "")
    (hnotall : ¬ ∀ b ∈ group.browsers, compareVersions b.version s = 0) :
    ((∃ b ∈ group.browsers, compareVersions b.version s < 0
        ∧ isSequentialVersionUpdate b.version s = false) →
      determineGroupStatus group
        = { status := GroupStatus.mismatch, message := "Version mismatch detected" })
    ∧ (¬ (∃ b ∈ group.browsers, compareVersions b.version s < 0
        ∧ isSequentialVersionUpdate b.version s = false) →
      determineGroupStatus group
        = { status := GroupStatus.pending, message := "Updates pending approval" }) :=
  groupStatus_mismatch_iff group s hsub hne hnotall

/-- Witness for C1: the amended theorem applied to the concrete ahead-store
group with submitted version 0.9. -/
theorem groupStatus_mismatch_iff_nonseq_behind_witness :
    ((∃ b ∈ wAheadGroup.browsers, compareVersions b.version "0.9" < 0
        ∧ isSequentialVersionUpdate b.version "0.9" = false) →
      determineGroupStatus wAheadGroup
        = { status := GroupStatus.mismatch, message := "Version mismatch detected" })
    ∧ (¬ (∃ b ∈ wAheadGroup.browsers, compareVersions b.version "0.9" < 0
        ∧ isSequentialVersionUpdate b.version "0.9" = false) →
      determineGroupStatus wAheadGroup
        = { status := GroupStatus.pending, message := "Updates pending approval" }) :=
  groupStatus_mismatch_iff_nonseq_behind wAheadGroup "0.9" rfl (by decide) (by decide)

/-- Claim C2, counterexample: the sequential-update detector does not treat a
malformed segment as 0.  On the current version 1.x.3 the segment x parses to
NaN, incrementing it keeps NaN, and the candidate renders as the literal text
1.NaN.0 — so the detector rejects the pair (1.x.3, 1.1.0) although after
replacing the malformed segment by 0 it accepts (1.0.3, 1.1.0). -/
theorem seqUpdate_nan_counterexample :
    sanitizeVersion "1.x.3" = "1.0.3"
    ∧ sanitizeVersion "1.1.0" = "1.1.0"
    ∧ isSequentialVersionUpdate "1.x.3" "1.1.0" = false
    ∧ isSequentialVersionUpdate (sanitizeVersion "1.x.3") (sanitizeVersion "1.1.0") = true
    ∧ renderParts (bumpAt (versionParts "1.x.3") 1) = "1.NaN.0" := by
  refine ⟨by decide, by decide, by decide, by decide, by decide⟩

/-- Claim C2 (amended): the comparator does treat every malformed segment as
0 — compareVersions is invariant under replacing each malformed segment of
either input by the segment 0 — but the sequential-update detector is not
invariant under that replacement. -/
theorem compareVersions_sanitize_invariant :
    (∀ a b : String,
      compareVersions a b = compareVersions (sanitizeVersion a) (sanitizeVersion b))
    ∧ ¬ (∀ current target : String,
      isSequentialVersionUpdate current target
        = isSequentialVersionUpdate (sanitizeVersion current) (sanitizeVersion target)) :=
  ⟨compareVersions_sanitize, fun h => absurd (h "1.x.3" "1.1.0") (by decide)⟩

/-- Claim C3: isSequentialVersionUpdate holds exactly when some segment index
of the current version yields the target as the dot-joined rendering of the
parts with that segment incremented and every later segment reset to 0; the
six specified example pairs evaluate as specified; and any two inputs with
different segment counts yield false. -/
theorem seqUpdate_characterization :
    (∀ current target : String,
      isSequentialVersionUpdate current target = true ↔ SpecSequential current target)
    ∧ isSequentialVersionUpdate "1.2.3" "1.2.4" = true
    ∧ isSequentialVersionUpdate "1.2.3" "1.3.0" = true
    ∧ isSequentialVersionUpdate "1.2.3" "2.0.0" = true
    ∧ isSequentialVersionUpdate "1.2.3" "1.4.0" = false
    ∧ isSequentialVersionUpdate "1.2.3" "1.2.5" = false
    ∧ isSequentialVersionUpdate "1.2.3" "1.2.3" = false
    ∧ (∀ current target : String,
      (splitDot current).length ≠ (splitDot target).length →
      isSequentialVersionUpdate current target = false) :=
  ⟨seqUpdate_spec_iff, by decide, by decide, by decide, by decide, by decide, by decide,
    seqUpdate_shape_false⟩

/-- Claim C4: determineBrowserRowStatus labels a row LIVE when the group has
no submitted version (absent or the falsy empty string) or when the row
version compares equal to it; PENDING when the row is behind and a sequential
predecessor; MISMATCH when the row is behind and non-sequential, or ahead —
in particular a row at 1.0 against submitted version 0.9 is MISMATCH. -/
theorem browserRowStatus_classification_claim (browser : BrowserInfo) (group : ExtensionGroup) :
    (group.submittedVersion = none →
      (determineBrowserRowStatus browser group).status = "✓ LIVE")
    ∧ (group.submittedVersion = some "" →
      (determineBrowserRowStatus browser group).status = "✓ LIVE")
    ∧ (∀ s, group.submittedVersion = some s → s ≠ "" →
        (compareVersions browser.version s = 0 →
          (determineBrowserRowStatus browser group).status = "✓ LIVE")
        ∧ (compareVersions browser.version s < 0 →
            isSequentialVersionUpdate browser.version s = true →
          (determineBrowserRowStatus browser group).status = "○ PENDING")
        ∧ (compareVersions browser.version s < 0 →
            isSequentialVersionUpdate browser.version s = false →
          (determineBrowserRowStatus browser group).status = "⚠ MISMATCH")
        ∧ (0 < compareVersions browser.version s →
          (determineBrowserRowStatus browser group).status = "⚠ MISMATCH"))
    ∧ (browser.version = "1.0" → group.submittedVersion = some "0.9" →
      (determineBrowserRowStatus browser group).status = "⚠ MISMATCH") :=
  browserRowStatus_classification browser group

/-- Claim C5: every group produced by processExtensionData draws its
latestVersion from its own store versions, that version is maximal under
compareVersions, and it sits at an index before which every version compares
strictly smaller — the earliest-seen maximal element, as the strict-greater
fold keeps ties on the earlier element. -/
theorem latestVersion_earliest_maximal (apiData : ApiResponse) (gs : List ExtensionGroup)
    (hgs : processExtensionData apiData = some gs) :
    ∀ g ∈ gs,
      g.latestVersion ∈ g.browsers.map (fun b => b.version)
      ∧ (∀ v ∈ g.browsers.map (fun b => b.version), compareVersions v g.latestVersion ≤ 0)
      ∧ ∃ i : Nat, (g.browsers.map (fun b => b.version))[i]? = some g.latestVersion
          ∧ ∀ j : Nat, j < i → ∀ v, (g.browsers.map (fun b => b.version))[j]? = some v →
              compareVersions v g.latestVersion < 0 :=
  latestVersion_props apiData gs hgs

/-- Witness for C5: the theorem applied to the concrete two-store feed wApi,
whose single group keeps version 1.1 from its firefox row. -/
theorem latestVersion_earliest_maximal_witness :
    wGroupOut.latestVersion ∈ wGroupOut.browsers.map (fun b => b.version)
    ∧ (∀ v ∈ wGroupOut.browsers.map (fun b => b.version),
        compareVersions v wGroupOut.latestVersion ≤ 0)
    ∧ ∃ i : Nat, (wGroupOut.browsers.map (fun b => b.version))[i]? = some wGroupOut.latestVersion
        ∧ ∀ j : Nat, j < i → ∀ v, (wGroupOut.browsers.map (fun b => b.version))[j]? = some v →
            compareVersions v wGroupOut.latestVersion < 0 :=
  latestVersion_earliest_maximal wApi [wGroupOut] (by decide) wGroupOut
    (List.mem_singleton.mpr rfl)

/-- Claim C6: the comparator is antisymmetric in sign on all inputs (well
formed or not) and reflexively zero. -/
theorem compareVersions_antisymm_refl :
    (∀ a b : String, compareVersions a b = - compareVersions b a)
    ∧ (∀ a : String, compareVersions a a = 0) :=
  ⟨compareVersions_antisymm, compareVersions_self⟩

/-- Claim C7: a raw record carrying neither an extension nor a name field is
silently discarded — the groups computed from the feed equal those computed
from the feed with that record removed, and no error arises (the result is
never none). -/
theorem processExtensionData_discards_nameless (pre post : ApiResponse) (store : String)
    (xs ys : List RawExtensionData) (r : RawExtensionData)
    (hext : r.extension = none) (hname : r.name = none) :
    processExtensionData (pre ++ (store, ApiEntry.stores (xs ++ r :: ys)) :: post)
      = processExtensionData (pre ++ (store, ApiEntry.stores (xs ++ ys)) :: post)
    ∧ processExtensionData (pre ++ (store, ApiEntry.stores (xs ++ r :: ys)) :: post) ≠ none := by
  refine ⟨processExtensionData_drop_nameless pre post store xs ys r hext hname, ?_⟩
  obtain ⟨gs, hgs, -⟩ :=
    processExtensionData_total (pre ++ (store, ApiEntry.stores (xs ++ r :: ys)) :: post)
  rw [hgs]
  simp

/-- Witness for C7: dropping the concrete nameless record from a one-store
feed leaves the processed output unchanged. -/
theorem processExtensionData_discards_nameless_witness :
    processExtensionData [("chrome", ApiEntry.stores [wRawNameless])]
      = processExtensionData [("chrome", ApiEntry.stores [])]
    ∧ processExtensionData [("chrome", ApiEntry.stores [wRawNameless])] ≠ none :=
  processExtensionData_discards_nameless [] [] "chrome" [] [] wRawNameless rfl rfl

/-- Claim C8: a group whose submitted version is absent, or trims to the
empty string, is classified live with the message No submission data. -/
theorem groupStatus_no_submission_live (group : ExtensionGroup)
    (h : group.submittedVersion = none
      ∨ ∃ s, group.submittedVersion = some s ∧ jsTrim s = "") :
    determineGroupStatus group
      = { status := GroupStatus.live, message := "No submission data" } :=
  statusLive_of_blank_submission group h

/-- Witness for C8: the concrete group with no submission data. -/
theorem groupStatus_no_submission_live_witness :
    determineGroupStatus wGroupNoSub
      = { status := GroupStatus.live, message := "No submission data" } :=
  groupStatus_no_submission_live wGroupNoSub (Or.inl rfl)

/-- Claim C9: on a non-empty, whitespace-only submitted version the two
classifiers disagree — determineGroupStatus trims and reports live with No
submission data, while determineBrowserRowStatus does not trim, compares
against the whitespace string (its single segment converts to 0), and labels
a row at version 1.0 MISMATCH. -/
theorem whitespace_submission_disagreement_claim (group : ExtensionGroup) (s : String)
    (browser : BrowserInfo) (hsub : group.submittedVersion = some s)
    (hne : s ≠ "") (hws : jsTrim s = "") (hver : browser.version = "1.0") :
    determineGroupStatus group
      = { status := GroupStatus.live, message := "No submission data" }
    ∧ (determineBrowserRowStatus browser group).status = "⚠ MISMATCH" :=
  whitespace_submission_disagreement group s browser hsub hne hws hver

/-- Witness for C9: the concrete group whose submitted version is a single
space, with the concrete chrome row at version 1.0. -/
theorem whitespace_submission_disagreement_claim_witness :
    determineGroupStatus wGroupWs
      = { status := GroupStatus.live, message := "No submission data" }
    ∧ (determineBrowserRowStatus wBrowserChrome wGroupWs).status = "⚠ MISMATCH" :=
  whitespace_submission_disagreement_claim wGroupWs " " wBrowserChrome rfl (by decide)
    (by decide) rfl

/-- Claim C10: processExtensionData never hits the empty-reduce error branch:
on every feed it returns some list of groups, and every returned group holds
at least one store record (a group is created only when its first record is
appended). -/
theorem groups_nonempty_reduce_safe (apiData : ApiResponse) :
    ∃ gs, processExtensionData apiData = some gs ∧ ∀ g ∈ gs, g.browsers ≠ [] :=
  processExtensionData_total apiData

end ExtMonitor
